import Mathlib

/-!
Verification of the futarchy-charts market-data engine.

Shallow embedding of the JavaScript sources:
* `src/src/utils/warmer.js` — expiry `Cache` (JS `Map` modelled as an
  association list) and the warm list of `registerForWarming`;
* `src/src/adapters/registry-adapter.js` — `resolveProposalId`;
* `src/src/services/spot-price.js` — `fetchCandlesFromGecko`'s pure
  transformation, `combineHopCandles`, per-hop inversion and
  `fetchSpotCandles` (effects modelled by `Except`-returning oracles);
* `src/lib/index.js` — `forwardFillCandles`.

JS numbers carrying prices are modelled as `ℚ`; unix timestamps and
millisecond clocks as `ℕ`.  `Date.now()` is passed explicitly as a `now`
argument.
-/

namespace FutarchyCharts

-- ============================================================================
-- Cache (src/src/utils/warmer.js, `export class Cache`)
-- ============================================================================

/-- One JS `Map` entry of `Cache.store`: key, value and the `time` recorded by
`set`.  Keys and values are type parameters (the repo uses string keys). -/
abbrev CacheEntry (K V : Type) := K × V × ℕ

/-- `Map.prototype.get`: the entry for `k`, if present. -/
def mapGet {K V : Type} [DecidableEq K] (store : List (CacheEntry K V)) (k : K) :
    Option (V × ℕ) :=
  (store.find? (fun e => e.1 == k)).map (·.2)

/-- `Map.prototype.set`: overwrite in place if the key is present, else append
(JS `Map` keeps insertion order). -/
def mapSet {K V : Type} [DecidableEq K] (store : List (CacheEntry K V)) (k : K)
    (v : V) (t : ℕ) : List (CacheEntry K V) :=
  if store.any (fun e => e.1 == k) then
    store.map (fun e => if e.1 == k then (k, v, t) else e)
  else
    store ++ [(k, v, t)]

/-- `Map.prototype.delete`. -/
def mapDelete {K V : Type} [DecidableEq K] (store : List (CacheEntry K V)) (k : K) :
    List (CacheEntry K V) :=
  store.filter (fun e => !(e.1 == k))

/-- The `Cache` object: `ttlMs` and the backing store (`hits`/`misses`
counters do not affect `get`/`set` results and are omitted). -/
structure Cache (K V : Type) where
  ttlMs : ℕ
  store : List (CacheEntry K V)

/-- `Cache.get`, with `Date.now()` passed as `now`.  Returns the JS return
value (`undefined` = `none`) together with the cache after the eager
eviction `this.store.delete(key)` on an expired entry. -/
def Cache.get {K V : Type} [DecidableEq K] (c : Cache K V) (key : K) (now : ℕ) :
    Option V × Cache K V :=
  match mapGet c.store key with
  | none => (none, c)
  | some (v, t) =>
    if now - t > c.ttlMs then
      (none, { c with store := mapDelete c.store key })
    else
      (some v, c)

/-- `Cache.set`, with `Date.now()` passed as `now`. -/
def Cache.set {K V : Type} [DecidableEq K] (c : Cache K V) (key : K) (value : V)
    (now : ℕ) : Cache K V :=
  { c with store := mapSet c.store key value now }

theorem mapGet_mapDelete {K V : Type} [DecidableEq K] (store : List (CacheEntry K V))
    (k : K) :
    mapGet (mapDelete store k) k = none := by
  unfold mapGet mapDelete
  rw [List.find?_eq_none.mpr]
  · rfl
  · intro x hx
    have hkeep := List.of_mem_filter hx
    simp only [Bool.not_eq_eq_eq_not, Bool.not_true] at hkeep ⊢
    simp_all

/-- **C4.** `Cache.get` on an absent key returns `undefined`; a read strictly
more than `ttlMs` after the stored timestamp returns `undefined` and removes
the entry; and a value is only ever returned while at most `ttlMs` has
elapsed since it was stored. -/
theorem cache_get_expiry {K V : Type} [DecidableEq K] (c : Cache K V) (key : K)
    (now : ℕ) :
    (mapGet c.store key = none → (c.get key now).1 = none)
    ∧ (∀ v t, mapGet c.store key = some (v, t) → now - t > c.ttlMs →
        (c.get key now).1 = none ∧ mapGet (c.get key now).2.store key = none)
    ∧ (∀ v, (c.get key now).1 = some v →
        ∃ t, mapGet c.store key = some (v, t) ∧ now - t ≤ c.ttlMs) := by
  refine ⟨fun h => by simp [Cache.get, h], fun v t h hexp => ?_, fun v h => ?_⟩
  · constructor
    · simp [Cache.get, h, if_pos hexp]
    · simp only [Cache.get, h, if_pos hexp]
      exact mapGet_mapDelete _ _
  · unfold Cache.get at h
    cases hm : mapGet c.store key with
    | none => rw [hm] at h; exact absurd h (by simp)
    | some vt =>
      obtain ⟨v', t⟩ := vt
      rw [hm] at h
      dsimp only at h
      by_cases hexp : now - t > c.ttlMs
      · rw [if_pos hexp] at h; exact absurd h (by simp)
      · rw [if_neg hexp] at h
        simp only at h
        obtain rfl : v' = v := by simpa using h
        exact ⟨t, rfl, by omega⟩

/-- Witness for C4 at a concrete cache: key `1` stored at time `0` with
`ttlMs = 30000`, read at time `30001` — expired, evicted. -/
theorem cache_get_expiry_witness :
    ((Cache.get ⟨30000, [(1, 7, 0)]⟩ 1 30001).1 = (none : Option ℕ)
      ∧ mapGet (Cache.get ⟨30000, [(1, 7, 0)]⟩ 1 30001).2.store 1 = none) :=
  (cache_get_expiry ⟨30000, [(1, 7, 0)]⟩ 1 30001).2.1 7 0 (by decide) (by decide)

-- ============================================================================
-- Warm list (src/src/utils/warmer.js, `registerForWarming`)
-- ============================================================================

/-- A warm-list entry: the request `params` (a type parameter), `lastSeen`
and `registeredAt` in milliseconds. -/
structure WarmEntry (P : Type) where
  params : P
  lastSeen : ℕ
  registeredAt : ℕ
deriving DecidableEq

/-- The JS loop
`for (const [key, entry] of warmList) if (entry.lastSeen < oldestTime) …`
starting from `oldestKey = null`, `oldestTime = Infinity`: the key of the
first entry with minimal `lastSeen`, paired with that `lastSeen`. -/
def findOldest {P : Type} (wl : List (ℕ × WarmEntry P)) : Option (ℕ × ℕ) :=
  wl.foldl
    (fun acc e =>
      match acc with
      | none => some (e.1, e.2.lastSeen)
      | some (k0, t0) => if e.2.lastSeen < t0 then some (e.1, e.2.lastSeen) else some (k0, t0))
    none

/-- `registerForWarming(cacheKey, params)` with `WARMER_MAX_ENTRIES` and
`Date.now()` passed explicitly; the warm-list `Map` is an association list. -/
def registerForWarming {P : Type} (maxEntries : ℕ) (wl : List (ℕ × WarmEntry P))
    (cacheKey : ℕ) (params : P) (now : ℕ) : List (ℕ × WarmEntry P) :=
  if wl.any (fun e => e.1 == cacheKey) then
    wl.map (fun e => if e.1 == cacheKey then (e.1, { e.2 with lastSeen := now }) else e)
  else
    let wl' :=
      if maxEntries ≤ wl.length then
        match findOldest wl with
        | none => wl
        | some (oldestKey, _) => wl.filter (fun e => !(e.1 == oldestKey))
      else wl
    wl' ++ [(cacheKey, ⟨params, now, now⟩)]

/-- `findOldest` from an accumulator `some p`: the result is `p` or comes
from the list, and its time is minimal among `p.2` and all entries. -/
lemma findOldest_fold_spec {P : Type} (wl : List (ℕ × WarmEntry P)) (p : ℕ × ℕ) :
    ∃ q : ℕ × ℕ,
      wl.foldl
        (fun acc e =>
          match acc with
          | none => some (e.1, e.2.lastSeen)
          | some (k0, t0) =>
            if e.2.lastSeen < t0 then some (e.1, e.2.lastSeen) else some (k0, t0))
        (some p) = some q
      ∧ (q = p ∨ ∃ e ∈ wl, q = (e.1, e.2.lastSeen))
      ∧ q.2 ≤ p.2 ∧ ∀ e ∈ wl, q.2 ≤ e.2.lastSeen := by
  induction wl generalizing p with
  | nil => exact ⟨p, rfl, Or.inl rfl, le_refl _, by simp⟩
  | cons e rest ih =>
    by_cases hlt : e.2.lastSeen < p.2
    · obtain ⟨q, hfold, hsrc, hle, hmin⟩ := ih (e.1, e.2.lastSeen)
      refine ⟨q, ?_, ?_, ?_, ?_⟩
      · simpa [List.foldl_cons, if_pos hlt] using hfold
      · rcases hsrc with h | ⟨e', he', h⟩
        · exact Or.inr ⟨e, List.mem_cons_self _ _, h⟩
        · exact Or.inr ⟨e', List.mem_cons_of_mem _ he', h⟩
      · exact le_trans hle (le_of_lt hlt)
      · intro e' he'
        rcases List.mem_cons.mp he' with rfl | h
        · exact hle
        · exact hmin e' h
    · obtain ⟨q, hfold, hsrc, hle, hmin⟩ := ih p
      refine ⟨q, ?_, ?_, hle, ?_⟩
      · simpa [List.foldl_cons, if_neg hlt] using hfold
      · rcases hsrc with h | ⟨e', he', h⟩
        · exact Or.inl h
        · exact Or.inr ⟨e', List.mem_cons_of_mem _ he', h⟩
      · intro e' he'
        rcases List.mem_cons.mp he' with rfl | h
        · omega
        · exact hmin e' h

/-- On a non-empty warm list, `findOldest` returns the key of an entry whose
`lastSeen` is minimal. -/
lemma findOldest_spec {P : Type} (wl : List (ℕ × WarmEntry P)) (hne : wl ≠ []) :
    ∃ e₀ ∈ wl, findOldest wl = some (e₀.1, e₀.2.lastSeen)
      ∧ ∀ e ∈ wl, e₀.2.lastSeen ≤ e.2.lastSeen := by
  obtain ⟨e, rest, rfl⟩ := List.exists_cons_of_ne_nil hne
  obtain ⟨q, hfold, hsrc, hle, hmin⟩ := findOldest_fold_spec rest (e.1, e.2.lastSeen)
  rcases hsrc with rfl | ⟨e', he', rfl⟩
  · refine ⟨e, List.mem_cons_self _ _, ?_, ?_⟩
    · simpa [findOldest] using hfold
    · intro x hx
      rcases List.mem_cons.mp hx with rfl | h
      · exact le_refl _
      · exact hmin x h
  · refine ⟨e', List.mem_cons_of_mem _ he', ?_, ?_⟩
    · simpa [findOldest] using hfold
    · intro x hx
      rcases List.mem_cons.mp hx with rfl | h
      · exact hle
      · exact hmin x h

/-- With pairwise-distinct keys (the `Map` invariant), two entries sharing a
key are the same entry. -/
lemma eq_of_key_eq {P : Type} {wl : List (ℕ × WarmEntry P)}
    (hnodup : (wl.map (·.1)).Nodup) {e e' : ℕ × WarmEntry P}
    (he : e ∈ wl) (he' : e' ∈ wl) (hk : e.1 = e'.1) : e = e' := by
  induction wl with
  | nil => cases he
  | cons x rest ih =>
    simp only [List.map_cons, List.nodup_cons] at hnodup
    rcases List.mem_cons.mp he with h1 | h1
    · rcases List.mem_cons.mp he' with h2 | h2
      · rw [h1, h2]
      · refine absurd ?_ hnodup.1
        rw [← h1, hk]
        exact List.mem_map_of_mem (·.1) h2
    · rcases List.mem_cons.mp he' with h2 | h2
      · refine absurd ?_ hnodup.1
        rw [← h2, ← hk]
        exact List.mem_map_of_mem (·.1) h1
      · exact ih hnodup.2 h1 h2

/-- With pairwise-distinct keys, deleting the key of a member removes exactly
one entry. -/
lemma length_filter_delete {P : Type} {wl : List (ℕ × WarmEntry P)}
    (hnodup : (wl.map (·.1)).Nodup) {e₀ : ℕ × WarmEntry P} (he₀ : e₀ ∈ wl) :
    (wl.filter (fun e => !(e.1 == e₀.1))).length + 1 = wl.length := by
  induction wl with
  | nil => cases he₀
  | cons x rest ih =>
    simp only [List.map_cons, List.nodup_cons] at hnodup
    rcases List.mem_cons.mp he₀ with rfl | he₀
    · have hdrop : rest.filter (fun e => !(e.1 == e₀.1)) = rest := by
        refine List.filter_eq_self.mpr (fun e he => ?_)
        have hne : e.1 ≠ e₀.1 := by
          intro hk
          exact hnodup.1 (by rw [← hk]; exact List.mem_map_of_mem (·.1) he)
        simp [hne]
      rw [List.filter_cons, if_neg (by simp), hdrop, List.length_cons]
    · have hx : x.1 ≠ e₀.1 := by
        intro hk
        exact hnodup.1 (by rw [hk]; exact List.mem_map_of_mem (·.1) he₀)
      rw [List.filter_cons, if_pos (by simp [hx]), List.length_cons, List.length_cons]
      have := ih hnodup.2 he₀
      omega

/-- **C5.** Registering a fresh key while the warm list is at capacity evicts
exactly one entry, one whose `lastSeen` is minimal; every entry with a
strictly more recent `lastSeen` survives, and the new key is admitted. -/
theorem register_evicts_oldest {P : Type} (maxEntries : ℕ)
    (wl : List (ℕ × WarmEntry P)) (cacheKey : ℕ) (params : P) (now : ℕ)
    (hfresh : ∀ e ∈ wl, e.1 ≠ cacheKey)
    (hcap : maxEntries ≤ wl.length) (hne : wl ≠ [])
    (hnodup : (wl.map (·.1)).Nodup) :
    ∃ e₀ ∈ wl,
      (∀ e ∈ wl, e₀.2.lastSeen ≤ e.2.lastSeen)
      ∧ registerForWarming maxEntries wl cacheKey params now
          = wl.filter (fun e => !(e.1 == e₀.1)) ++ [(cacheKey, ⟨params, now, now⟩)]
      ∧ (wl.filter (fun e => !(e.1 == e₀.1))).length + 1 = wl.length
      ∧ (∀ e ∈ wl, e₀.2.lastSeen < e.2.lastSeen →
          e ∈ registerForWarming maxEntries wl cacheKey params now)
      ∧ (cacheKey, (⟨params, now, now⟩ : WarmEntry P))
          ∈ registerForWarming maxEntries wl cacheKey params now := by
  obtain ⟨e₀, he₀, hfind, hmin⟩ := findOldest_spec wl hne
  have hany : wl.any (fun e => e.1 == cacheKey) = false := by
    rw [List.any_eq_false]
    intro e he
    simpa using hfresh e he
  have hreg : registerForWarming maxEntries wl cacheKey params now
      = wl.filter (fun e => !(e.1 == e₀.1)) ++ [(cacheKey, ⟨params, now, now⟩)] := by
    unfold registerForWarming
    rw [hany]
    simp only [Bool.false_eq_true, if_false, if_pos hcap, hfind]
  refine ⟨e₀, he₀, hmin, hreg, length_filter_delete hnodup he₀, ?_, ?_⟩
  · intro e he hlt
    rw [hreg]
    refine List.mem_append_left _ (List.mem_filter.mpr ⟨he, ?_⟩)
    have hke : e.1 ≠ e₀.1 := by
      intro hk
      have heq : e = e₀ := eq_of_key_eq hnodup he he₀ hk
      subst heq
      exact absurd hlt (lt_irrefl _)
    simp [hke]
  · rw [hreg]
    exact List.mem_append_right _ (List.mem_singleton.mpr rfl)

/-- Witness for C5: capacity 2, full list with keys 1, 2 (`lastSeen` 5 and 3),
registering fresh key 7 at time 9. -/
theorem register_evicts_oldest_witness :
    ∃ e₀ ∈ [(1, (⟨(), 5, 0⟩ : WarmEntry Unit)), (2, ⟨(), 3, 0⟩)],
      (∀ e ∈ [(1, (⟨(), 5, 0⟩ : WarmEntry Unit)), (2, ⟨(), 3, 0⟩)],
          e₀.2.lastSeen ≤ e.2.lastSeen)
      ∧ registerForWarming 2 [(1, ⟨(), 5, 0⟩), (2, ⟨(), 3, 0⟩)] 7 () 9
          = [(1, (⟨(), 5, 0⟩ : WarmEntry Unit)), (2, ⟨(), 3, 0⟩)].filter
              (fun e => !(e.1 == e₀.1)) ++ [(7, ⟨(), 9, 9⟩)]
      ∧ ([(1, (⟨(), 5, 0⟩ : WarmEntry Unit)), (2, ⟨(), 3, 0⟩)].filter
            (fun e => !(e.1 == e₀.1))).length + 1 = 2
      ∧ (∀ e ∈ [(1, (⟨(), 5, 0⟩ : WarmEntry Unit)), (2, ⟨(), 3, 0⟩)],
          e₀.2.lastSeen < e.2.lastSeen →
          e ∈ registerForWarming 2 [(1, ⟨(), 5, 0⟩), (2, ⟨(), 3, 0⟩)] 7 () 9)
      ∧ (7, (⟨(), 9, 9⟩ : WarmEntry Unit))
          ∈ registerForWarming 2 [(1, ⟨(), 5, 0⟩), (2, ⟨(), 3, 0⟩)] 7 () 9 :=
  register_evicts_oldest 2 [(1, ⟨(), 5, 0⟩), (2, ⟨(), 3, 0⟩)] 7 () 9
    (by decide) (by decide) (by simp) (by decide)

/-- A whole request history replayed through `registerForWarming`, starting
from the empty warm list (`ops` lists `(cacheKey, params, now)` triples). -/
def registerSeq {P : Type} (maxEntries : ℕ) (ops : List (ℕ × P × ℕ)) :
    List (ℕ × WarmEntry P) :=
  ops.foldl (fun wl op => registerForWarming maxEntries wl op.1 op.2.1 op.2.2) []

/-- One registration never grows the warm list beyond a positive capacity. -/
lemma register_length_le {P : Type} {maxEntries : ℕ} (hpos : 0 < maxEntries)
    (wl : List (ℕ × WarmEntry P)) (cacheKey : ℕ) (params : P) (now : ℕ)
    (hlen : wl.length ≤ maxEntries) :
    (registerForWarming maxEntries wl cacheKey params now).length ≤ maxEntries := by
  unfold registerForWarming
  by_cases hany : wl.any (fun e => e.1 == cacheKey)
  · simpa [hany] using hlen
  · simp only [hany, Bool.false_eq_true, if_false]
    by_cases hcap : maxEntries ≤ wl.length
    · have hne : wl ≠ [] := by
        intro h
        rw [h] at hcap
        simp at hcap
        omega
      obtain ⟨e₀, he₀, hfind, _⟩ := findOldest_spec wl hne
      rw [if_pos hcap, hfind]
      simp only [List.length_append, List.length_singleton]
      have hdrop : (wl.filter (fun e => !(e.1 == e₀.1))).length < wl.length :=
        List.length_filter_lt_length_iff_exists.mpr ⟨e₀, he₀, by simp⟩
      omega
    · rw [if_neg hcap]
      simp only [List.length_append, List.length_singleton]
      omega

/-- **C10.** Starting from the empty warm list, after every sequence of
`registerForWarming` calls the warm list holds at most `maxEntries` entries
(for the repository's positive `WARMER_MAX_ENTRIES`, default 50). -/
theorem warm_list_bounded {P : Type} (maxEntries : ℕ) (hpos : 0 < maxEntries)
    (ops : List (ℕ × P × ℕ)) :
    (registerSeq maxEntries ops).length ≤ maxEntries := by
  suffices h : ∀ wl : List (ℕ × WarmEntry P), wl.length ≤ maxEntries →
      (ops.foldl (fun wl op => registerForWarming maxEntries wl op.1 op.2.1 op.2.2)
        wl).length ≤ maxEntries by
    exact h [] (by simp)
  induction ops with
  | nil => intro wl hwl; simpa using hwl
  | cons op rest ih =>
    intro wl hwl
    exact ih _ (register_length_le hpos wl op.1 op.2.1 op.2.2 hwl)

/-- Witness for C10 at capacity 2 and a four-registration history. -/
theorem warm_list_bounded_witness :
    (registerSeq 2 [(1, (), 0), (2, (), 1), (3, (), 2), (4, (), 3)]).length ≤ 2 :=
  warm_list_bounded 2 (by decide) [(1, (), 0), (2, (), 1), (3, (), 2), (4, (), 3)]

-- ============================================================================
-- resolveProposalId (src/src/adapters/registry-adapter.js)
-- ============================================================================

/-- JS strings as character sequences (so that `toLowerCase` computes). -/
abbrev JSString := List Char

/-- `String.prototype.toLowerCase` (character-wise lower-casing). -/
def jsToLower (s : JSString) : JSString := s.map Char.toLower

/-- The normalized proposal record assembled by `resolveProposalId`; only the
fields written by the pass-through fallback are modelled as mandatory, the
organization fields are nullable. -/
structure ResolvedProposal where
  proposalId : JSString
  proposalAddress : JSString
  originalProposalId : JSString
  organizationId : Option JSString
  organizationName : Option JSString
deriving DecidableEq

/-- `resolveProposalId(proposalId)`.  The two backend lookups (chosen by
`IS_CHECKPOINT`) are passed as `Option`-valued oracles — `none` is the
resolution miss (`null`) of either backend; `registryCache` and `Date.now()`
are passed explicitly. -/
def resolveProposalId (cache : Cache JSString ResolvedProposal)
    (lookupBySnapshotId lookupInOrgMetadata : JSString → Option ResolvedProposal)
    (proposalId : JSString) (now : ℕ) :
    ResolvedProposal × Cache JSString ResolvedProposal :=
  let normalized := jsToLower proposalId
  match (cache.get normalized now).1 with
  | some cached => (cached, (cache.get normalized now).2)
  | none =>
    let cache' := (cache.get normalized now).2
    match lookupBySnapshotId normalized with
    | some snapshotResult => (snapshotResult, cache'.set normalized snapshotResult now)
    | none =>
      match lookupInOrgMetadata normalized with
      | some orgResult => (orgResult, cache'.set normalized orgResult now)
      | none =>
        let fallback : ResolvedProposal :=
          ⟨normalized, normalized, proposalId, none, none⟩
        (fallback, cache'.set normalized fallback now)

/-- **C6.** On a registry-cache miss, when both the snapshot-id lookup and
the organization-metadata lookup miss, the input is passed through as the
trading address: `proposalId` and `proposalAddress` are the lower-cased
input, `originalProposalId` is the input verbatim, and both organization
fields are `null`; the function returns this record rather than failing. -/
theorem resolveProposalId_passthrough (cache : Cache JSString ResolvedProposal)
    (lookupBySnapshotId lookupInOrgMetadata : JSString → Option ResolvedProposal)
    (proposalId : JSString) (now : ℕ)
    (hmiss : (cache.get (jsToLower proposalId) now).1 = none)
    (hsnap : lookupBySnapshotId (jsToLower proposalId) = none)
    (horg : lookupInOrgMetadata (jsToLower proposalId) = none) :
    (resolveProposalId cache lookupBySnapshotId lookupInOrgMetadata proposalId now).1
      = ⟨jsToLower proposalId, jsToLower proposalId, proposalId, none, none⟩ := by
  simp only [resolveProposalId, hmiss, hsnap, horg]

/-- Witness for C6: empty cache and always-missing lookups on input
`"0xAbCd"`. -/
theorem resolveProposalId_passthrough_witness :
    (resolveProposalId ⟨300000, []⟩ (fun _ => none) (fun _ => none) "0xAbCd".data 0).1
      = ⟨"0xabcd".data, "0xabcd".data, "0xAbCd".data, none, none⟩ :=
  (resolveProposalId_passthrough ⟨300000, []⟩ (fun _ => none) (fun _ => none)
    "0xAbCd".data 0 rfl rfl rfl).trans (by decide)

-- ============================================================================
-- Spot-price service (src/src/services/spot-price.js)
-- ============================================================================

/-- A `{ time, value }` candle of the spot-price service. -/
structure Candle where
  time : ℕ
  value : ℚ
deriving Repr, DecidableEq

instance : Inhabited Candle := ⟨⟨0, 0⟩⟩

/-- One upstream OHLCV tuple `[timestamp, open, high, low, close, volume]`
from GeckoTerminal. -/
structure OhlcvRow where
  ts : ℕ
  o : ℚ
  h : ℚ
  l : ℚ
  c : ℚ
  vol : ℚ
deriving Repr, DecidableEq

instance : IsTotal Candle (fun a b => a.time ≤ b.time) :=
  ⟨fun a b => Nat.le_total a.time b.time⟩

instance : IsTrans Candle (fun a b => a.time ≤ b.time) :=
  ⟨fun _ _ _ => Nat.le_trans⟩

/-- JS `raw.sort((a, b) => a.time - b.time)`. -/
def sortByTime (l : List Candle) : List Candle :=
  l.insertionSort (fun a b => a.time ≤ b.time)

/-- The `seen`-set filter of `fetchCandlesFromGecko`: keep the first
occurrence of each timestamp, walking left to right. -/
def dedupFirst : List Candle → List ℕ → List Candle
  | [], _ => []
  | c :: rest, seen =>
    if c.time ∈ seen then dedupFirst rest seen
    else c :: dedupFirst rest (c.time :: seen)

/-- The pure transformation of `fetchCandlesFromGecko` applied to the decoded
`ohlcv_list`: map to `{ time, value: close }`, `.reverse()`, de-duplicate
timestamps with a `seen` set, then sort ascending by time. -/
def geckoCandleTransform (ohlcv : List OhlcvRow) : List Candle :=
  sortByTime (dedupFirst ((ohlcv.map (fun r => ⟨r.ts, r.c⟩)).reverse) [])

-- ---------------------------------------------------------------------------
-- Multi-hop combination (combineHopCandles)
-- ---------------------------------------------------------------------------

/-- `hopMaps[i].get(time)` where the map was built by
`candles.forEach(c => map.set(c.time, c.value))` (later entries overwrite). -/
def hopLookup (hop : List Candle) (t : ℕ) : Option ℚ :=
  hop.foldl (fun acc c => if c.time = t then some c.value else acc) none

/-- All timestamps of all hops (the contents of the JS `Set`). -/
def allTimes (hops : List (List Candle)) : List ℕ :=
  (hops.map (fun hop => hop.map (·.time))).flatten

/-- The de-duplicated, ascending list of all hops' timestamps
(`[...allTimestamps].sort((a, b) => a - b)`). -/
def sortedUnionTimes (hops : List (List Candle)) : List ℕ :=
  (allTimes hops).dedup.insertionSort (· ≤ ·)

/-- One iteration of the inner `for (let i = 0; …)` loop over the hops:
refresh `lastKnownPrices[i]` from `hopMaps[i]` at timestamp `t`. -/
def stepHops (hops : List (List Candle)) (last : List (Option ℚ)) (t : ℕ) :
    List (Option ℚ) :=
  hops.zipWith
    (fun hop lk =>
      match hopLookup hop t with
      | some v => some v
      | none => lk)
    last

/-- The outer `for (const time of sortedTimes)` loop of `combineHopCandles`:
emit a composite candle once every `lastKnownPrices[i]` is non-null. -/
def combineGo (hops : List (List Candle)) : List ℕ → List (Option ℚ) → List Candle
  | [], _ => []
  | t :: ts, last =>
    let last' := stepHops hops last t
    if last'.all Option.isSome then
      ⟨t, (last'.map (fun o => o.getD 0)).prod⟩ :: combineGo hops ts last'
    else
      combineGo hops ts last'

/-- `combineHopCandles(hopCandlesArray)`. -/
def combineHopCandles (hops : List (List Candle)) : List Candle :=
  if hops.length = 0 then []
  else if hops.length = 1 then hops.headI
  else combineGo hops (sortedUnionTimes hops) (hops.map fun _ => none)

/-- Per-hop / trailing inversion `candles.map(c => ({ ...c, value: 1 / c.value }))`
of `fetchHopCandles` (when `hop.invert`) and `fetchSpotCandles`
(when `config.invert`). -/
def invertCandles (candles : List Candle) : List Candle :=
  candles.map (fun c => { c with value := 1 / c.value })

/-- **C8.** For a single-hop composite with all values non-zero, marking the
hop inverted and then applying the trailing inversion to the combined result
restores the original series (exactly, over `ℚ`). -/
theorem invert_roundtrip (candles : List Candle)
    (_hnz : ∀ c ∈ candles, c.value ≠ 0) :
    invertCandles (combineHopCandles [invertCandles candles]) = candles := by
  have hone : combineHopCandles [invertCandles candles] = invertCandles candles := by
    simp [combineHopCandles, List.headI]
  rw [hone]
  unfold invertCandles
  rw [List.map_map]
  conv_rhs => rw [← List.map_id candles]
  refine List.map_congr_left (fun c hc => ?_)
  simp only [Function.comp_apply, id_eq]
  have : (1 : ℚ) / (1 / c.value) = c.value := one_div_one_div c.value
  cases c with
  | mk t v => simp only at this ⊢; rw [this]

/-- Witness for C8 on a concrete two-candle series. -/
theorem invert_roundtrip_witness :
    invertCandles (combineHopCandles [invertCandles [⟨1, 2⟩, ⟨5, 3⟩]])
      = [⟨1, 2⟩, ⟨5, 3⟩] :=
  invert_roundtrip [⟨1, 2⟩, ⟨5, 3⟩] (by decide)

-- ---------------------------------------------------------------------------
-- fetchCandlesFromGecko: de-duplication and sorting (C7)
-- ---------------------------------------------------------------------------

lemma dedupFirst_nodup (l : List Candle) (seen : List ℕ) :
    ((dedupFirst l seen).map (·.time)).Nodup
    ∧ ∀ c ∈ dedupFirst l seen, c.time ∉ seen := by
  induction l generalizing seen with
  | nil => exact ⟨List.nodup_nil, by simp [dedupFirst]⟩
  | cons c rest ih =>
    by_cases hmem : c.time ∈ seen
    · rw [dedupFirst, if_pos hmem]
      exact ih seen
    · rw [dedupFirst, if_neg hmem]
      obtain ⟨ihn, ihs⟩ := ih (c.time :: seen)
      refine ⟨?_, ?_⟩
      · rw [List.map_cons, List.nodup_cons]
        refine ⟨?_, ihn⟩
        intro hc
        obtain ⟨c', hc', ht⟩ := List.mem_map.mp hc
        exact (ihs c' hc') (ht ▸ List.mem_cons_self _ _)
      · intro x hx
        rcases List.mem_cons.mp hx with rfl | hx
        · exact hmem
        · exact fun hs => (ihs x hx) (List.mem_cons_of_mem _ hs)

lemma dedupFirst_mem_times (l : List Candle) (seen : List ℕ) (t : ℕ) :
    (t ∈ (dedupFirst l seen).map (·.time))
      ↔ (t ∈ l.map (·.time) ∧ t ∉ seen) := by
  induction l generalizing seen with
  | nil => simp [dedupFirst]
  | cons c rest ih =>
    by_cases hmem : c.time ∈ seen
    · rw [dedupFirst, if_pos hmem, ih seen]
      simp only [List.map_cons, List.mem_cons]
      constructor
      · rintro ⟨h1, h2⟩
        exact ⟨Or.inr h1, h2⟩
      · rintro ⟨h1 | h1, h2⟩
        · subst h1
          exact absurd hmem h2
        · exact ⟨h1, h2⟩
    · rw [dedupFirst, if_neg hmem]
      simp only [List.map_cons, List.mem_cons]
      rw [ih (c.time :: seen)]
      constructor
      · rintro (rfl | ⟨h1, h2⟩)
        · exact ⟨Or.inl rfl, hmem⟩
        · exact ⟨Or.inr h1, fun hs => h2 (List.mem_cons_of_mem _ hs)⟩
      · rintro ⟨h1 | h1, h2⟩
        · exact Or.inl h1
        · by_cases hct : t = c.time
          · exact Or.inl hct
          · refine Or.inr ⟨h1, fun hs => ?_⟩
            rcases List.mem_cons.mp hs with h | h
            · exact hct h
            · exact h2 h

lemma dedupFirst_find? (l : List Candle) (seen : List ℕ) :
    ∀ c ∈ dedupFirst l seen, l.find? (fun x => x.time == c.time) = some c := by
  induction l generalizing seen with
  | nil => simp [dedupFirst]
  | cons x rest ih =>
    intro c hc
    by_cases hmem : x.time ∈ seen
    · rw [dedupFirst, if_pos hmem] at hc
      have hne : x.time ≠ c.time := by
        intro h
        exact ((dedupFirst_nodup rest seen).2 c hc) (h ▸ hmem)
      rw [List.find?_cons_of_neg _ (by simpa using hne)]
      exact ih seen c hc
    · rw [dedupFirst, if_neg hmem] at hc
      rcases List.mem_cons.mp hc with rfl | hc
      · exact List.find?_cons_of_pos _ (by simp)
      · have hne : x.time ≠ c.time := by
          intro h
          exact ((dedupFirst_nodup rest (x.time :: seen)).2 c hc)
            (h ▸ List.mem_cons_self _ _)
        rw [List.find?_cons_of_neg _ (by simpa using hne)]
        exact ih (x.time :: seen) c hc

lemma pairwise_lt_times (l : List Candle)
    (hs : l.Pairwise (fun a b => a.time ≤ b.time))
    (hn : (l.map (·.time)).Nodup) :
    l.Pairwise (fun a b => a.time < b.time) := by
  induction l with
  | nil => exact List.Pairwise.nil
  | cons a rest ih =>
    rw [List.pairwise_cons] at hs ⊢
    rw [List.map_cons, List.nodup_cons] at hn
    refine ⟨fun b hb => ?_, ih hs.2 hn.2⟩
    refine lt_of_le_of_ne (hs.1 b hb) (fun h => ?_)
    exact hn.1 (h ▸ List.mem_map_of_mem (·.time) hb)

/-- **C7 (amended).** The transformed GeckoTerminal series has pairwise
distinct timestamps, is sorted strictly ascending, covers exactly the
upstream timestamps, and for every timestamp the retained close is that of
the first occurrence after the upstream list is reversed — i.e. the last
occurrence in upstream feed order. -/
theorem geckoTransform_spec (ohlcv : List OhlcvRow) :
    ((geckoCandleTransform ohlcv).map (·.time)).Nodup
    ∧ (geckoCandleTransform ohlcv).Pairwise (fun a b => a.time < b.time)
    ∧ (∀ t : ℕ, t ∈ (geckoCandleTransform ohlcv).map (·.time)
        ↔ ∃ row ∈ ohlcv, row.ts = t)
    ∧ ∀ cnd ∈ geckoCandleTransform ohlcv,
        ∃ row, ohlcv.reverse.find? (fun r => r.ts == cnd.time) = some row
          ∧ row.c = cnd.value := by
  set raw : List Candle := (ohlcv.map (fun r => ⟨r.ts, r.c⟩)).reverse with hraw
  set d : List Candle := dedupFirst raw [] with hd
  have hperm : List.Perm (geckoCandleTransform ohlcv) d := by
    rw [geckoCandleTransform, sortByTime, ← hraw, ← hd]
    exact List.perm_insertionSort _ _
  have hpermt : List.Perm ((geckoCandleTransform ohlcv).map (·.time)) (d.map (·.time)) :=
    hperm.map _
  have hdn : (d.map (·.time)).Nodup := (dedupFirst_nodup raw []).1
  have hnodup : ((geckoCandleTransform ohlcv).map (·.time)).Nodup :=
    hpermt.nodup_iff.mpr hdn
  have hsorted : (geckoCandleTransform ohlcv).Pairwise (fun a b => a.time ≤ b.time) := by
    rw [geckoCandleTransform, sortByTime, ← hraw, ← hd]
    exact List.sorted_insertionSort _ _
  refine ⟨hnodup, pairwise_lt_times _ hsorted hnodup, fun t => ?_, fun cnd hcnd => ?_⟩
  · rw [hpermt.mem_iff, dedupFirst_mem_times]
    simp only [List.not_mem_nil, not_false_iff, and_true, hraw]
    rw [List.map_reverse, List.mem_reverse, List.map_map]
    simp only [List.mem_map, Function.comp_apply]
  · have hcd : cnd ∈ d := hperm.mem_iff.mp hcnd
    have hfind : raw.find? (fun x => x.time == cnd.time) = some cnd :=
      dedupFirst_find? raw [] cnd hcd
    rw [hraw, ← List.map_reverse, List.find?_map] at hfind
    obtain ⟨row, hrow, hmap⟩ := Option.map_eq_some'.mp hfind
    refine ⟨row, ?_, ?_⟩
    · rw [← hrow]
      rfl
    · have : row.c = cnd.value := congrArg Candle.value hmap
      exact this

/-- **C7 counterexample** to the claim as stated: with two upstream rows at
timestamp 100 whose closes are 1 then 2 (in upstream feed order), the
retained close is 2, not the first occurrence's 1. -/
theorem geckoTransform_first_occurrence_false :
    (([⟨100, 0, 0, 0, 1, 0⟩, ⟨100, 0, 0, 0, 2, 0⟩] : List OhlcvRow).find?
        (fun r => r.ts == 100)).map OhlcvRow.c = some 1
    ∧ geckoCandleTransform [⟨100, 0, 0, 0, 1, 0⟩, ⟨100, 0, 0, 0, 2, 0⟩]
        = [⟨100, 2⟩]
    ∧ (2 : ℚ) ≠ 1 := by
  refine ⟨by decide, by decide, by decide⟩

-- ============================================================================
-- forwardFillCandles (src/lib/index.js)
-- ============================================================================

/-- A graph-side candle `{ periodStartUnix, close }`.  The source stores both
as strings and applies `parseInt`; the numeric content is modelled directly. -/
structure FillCandle where
  periodStartUnix : ℕ
  close : ℚ
deriving Repr, DecidableEq

/-- `const ONE_HOUR = 3600`. -/
def ONE_HOUR : ℕ := 3600

/-- Timestamps produced by the inner gap loop
`for (let hour = 1; hour < gapHours; hour++)` with
`gapHours = (nextTime - currentTime) / ONE_HOUR`: an integer `hour ≥ 1`
satisfies `hour < (next-cur)/3600` exactly when
`hour ≤ (next - cur - 1) / 3600` in natural division (the `gapHours > 1`
guard is subsumed: the count is `0` whenever `next - cur ≤ 3600`). -/
def gapFillTimes (cur next : ℕ) : List ℕ :=
  (List.range' 1 ((next - cur - 1) / ONE_HOUR)).map (fun h => cur + h * ONE_HOUR)

/-- Timestamps produced by the trailing loop
`let fillTime = cur + ONE_HOUR; while (fillTime <= effectiveMax) …`:
`cur + h * 3600 ≤ effectiveMax` for `h ≥ 1` exactly when
`h ≤ (effectiveMax - cur) / 3600`. -/
def whileFillTimes (cur effMax : ℕ) : List ℕ :=
  (List.range' 1 ((effMax - cur) / ONE_HOUR)).map (fun h => cur + h * ONE_HOUR)

/-- The indexed `for (let i = 0; i < candles.length; i++)` walk of
`forwardFillCandles`: push the real candle when within `effectiveMax`; between
consecutive candles push the (bounded) gap fills; after the last candle push
the trailing fills. -/
def ffGo (effMax : ℕ) : List FillCandle → List FillCandle
  | [] => []
  | [c] =>
    (if c.periodStartUnix ≤ effMax then [c] else [])
      ++ (whileFillTimes c.periodStartUnix effMax).map (fun ft => ⟨ft, c.close⟩)
  | c :: c' :: rest =>
    (if c.periodStartUnix ≤ effMax then [c] else [])
      ++ ((gapFillTimes c.periodStartUnix c'.periodStartUnix).filter
            (fun ft => decide (ft ≤ effMax))).map (fun ft => ⟨ft, c.close⟩)
      ++ ffGo effMax (c' :: rest)

/-- `forwardFillCandles(candles, maxTimestamp)` with `Date.now()` passed as
`now` (in seconds); `effectiveMax = Math.min(maxTimestamp, nowSeconds)`. -/
def forwardFillCandles (candles : List FillCandle) (maxTimestamp now : ℕ) :
    List FillCandle :=
  if candles.isEmpty then candles
  else ffGo (min maxTimestamp now) candles

/-- Relation between consecutive emitted candles: strictly forward in time
with a gap of at most one bucket width (3600 s). -/
def hourStep (a b : FillCandle) : Prop :=
  a.periodStartUnix < b.periodStartUnix
    ∧ b.periodStartUnix ≤ a.periodStartUnix + 3600

lemma range'_filter_le (K : ℕ) : ∀ (n s : ℕ),
    (List.range' s n).filter (fun h => decide (h ≤ K))
      = List.range' s (min n (K + 1 - s)) := by
  intro n
  induction n with
  | zero => intro s; simp
  | succ n ih =>
    intro s
    rw [List.range'_succ, List.filter_cons]
    by_cases hs : s ≤ K
    · rw [if_pos (by simpa using hs), ih (s + 1)]
      have h1 : K + 1 - (s + 1) = K - s := by omega
      have h2 : min (n + 1) (K + 1 - s) = min n (K - s) + 1 := by omega
      rw [h1, h2, List.range'_succ]
    · rw [if_neg (by simpa using hs), ih (s + 1)]
      have h1 : min n (K + 1 - (s + 1)) = 0 := by omega
      have h2 : min (n + 1) (K + 1 - s) = 0 := by omega
      rw [h1, h2]
      rfl

lemma filter_le_fills (cur effMax : ℕ) (n : ℕ) :
    ((List.range' 1 n).map (fun h => cur + h * ONE_HOUR)).filter
        (fun ft => decide (ft ≤ effMax))
      = (List.range' 1 (min n ((effMax - cur) / ONE_HOUR))).map
          (fun h => cur + h * ONE_HOUR) := by
  rw [List.filter_map]
  have hcong : (List.range' 1 n).filter
        ((fun ft => decide (ft ≤ effMax)) ∘ (fun h => cur + h * ONE_HOUR))
      = (List.range' 1 n).filter (fun h => decide (h ≤ (effMax - cur) / ONE_HOUR)) := by
    refine List.filter_congr (fun h hh => ?_)
    have h1 : 1 ≤ h := (List.mem_range'_1.mp hh).1
    have hdiv : h ≤ (effMax - cur) / ONE_HOUR ↔ h * ONE_HOUR ≤ effMax - cur :=
      Nat.le_div_iff_mul_le (by norm_num [ONE_HOUR])
    simp only [Function.comp_apply, decide_eq_decide, hdiv, ONE_HOUR]
    omega
  rw [hcong, range'_filter_le, Nat.add_sub_cancel]

lemma ffGo_eq_nil (effMax : ℕ) : ∀ (l : List FillCandle),
    (∀ c ∈ l, effMax < c.periodStartUnix) → ffGo effMax l = [] := by
  intro l
  induction l with
  | nil => intro _; rfl
  | cons c rest ih =>
    intro hall
    have hc : effMax < c.periodStartUnix := hall c (List.mem_cons_self _ _)
    cases rest with
    | nil =>
      rw [ffGo, if_neg (by omega)]
      have hk : (effMax - c.periodStartUnix) / ONE_HOUR = 0 := by
        have : effMax - c.periodStartUnix = 0 := by omega
        rw [this]
        rfl
      simp [whileFillTimes, hk]
    | cons c' rest' =>
      rw [ffGo, if_neg (by omega)]
      have hfills : (gapFillTimes c.periodStartUnix c'.periodStartUnix).filter
          (fun ft => decide (ft ≤ effMax)) = [] := by
        refine List.filter_eq_nil_iff.mpr (fun ft hft => ?_)
        obtain ⟨h, hh, rfl⟩ := List.mem_map.mp hft
        have h1 : 1 ≤ h := (List.mem_range'_1.mp hh).1
        simp only [decide_eq_true_eq, ONE_HOUR]
        omega
      rw [hfills]
      simp only [List.map_nil, List.nil_append, List.append_nil]
      exact ih (fun x hx => hall x (List.mem_cons_of_mem _ hx))

lemma ffGo_mem_le (effMax : ℕ) : ∀ (l : List FillCandle),
    ∀ x ∈ ffGo effMax l, x.periodStartUnix ≤ effMax := by
  intro l
  induction l with
  | nil => simp [ffGo]
  | cons c rest ih =>
    intro x hx
    cases rest with
    | nil =>
      rw [ffGo] at hx
      rcases List.mem_append.mp hx with hx | hx
      · by_cases hc : c.periodStartUnix ≤ effMax
        · rw [if_pos hc] at hx
          rcases List.mem_singleton.mp hx with rfl
          exact hc
        · rw [if_neg hc] at hx
          cases hx
      · obtain ⟨ft, hft, rfl⟩ := List.mem_map.mp hx
        obtain ⟨h, hh, rfl⟩ := List.mem_map.mp hft
        obtain ⟨h1, h2⟩ := List.mem_range'_1.mp hh
        have := Nat.le_div_iff_mul_le (k := ONE_HOUR) (by norm_num [ONE_HOUR]) |>.mp
          (by omega : h ≤ (effMax - c.periodStartUnix) / ONE_HOUR)
        simp only [ONE_HOUR] at this ⊢
        omega
    | cons c' rest' =>
      rw [ffGo] at hx
      rcases List.mem_append.mp hx with hx | hx
      · rcases List.mem_append.mp hx with hx | hx
        · by_cases hc : c.periodStartUnix ≤ effMax
          · rw [if_pos hc] at hx
            rcases List.mem_singleton.mp hx with rfl
            exact hc
          · rw [if_neg hc] at hx
            cases hx
        · obtain ⟨ft, hft, rfl⟩ := List.mem_map.mp hx
          have := List.of_mem_filter hft
          simpa using this
      · exact ih x hx

lemma fills_canonical (c : FillCandle) (next effMax : ℕ) :
    ((gapFillTimes c.periodStartUnix next).filter (fun ft => decide (ft ≤ effMax))).map
        (fun ft => (⟨ft, c.close⟩ : FillCandle))
      = (List.range' 1 (min ((next - c.periodStartUnix - 1) / ONE_HOUR)
            ((effMax - c.periodStartUnix) / ONE_HOUR))).map
          (fun h => (⟨c.periodStartUnix + h * ONE_HOUR, c.close⟩ : FillCandle)) := by
  rw [gapFillTimes, filter_le_fills, List.map_map]
  rfl

lemma tailfills_canonical (c : FillCandle) (effMax : ℕ) :
    (whileFillTimes c.periodStartUnix effMax).map (fun ft => (⟨ft, c.close⟩ : FillCandle))
      = (List.range' 1 ((effMax - c.periodStartUnix) / ONE_HOUR)).map
          (fun h => (⟨c.periodStartUnix + h * ONE_HOUR, c.close⟩ : FillCandle)) := by
  rw [whileFillTimes, List.map_map]
  rfl

lemma chain_progression (t0 : ℕ) (v : ℚ) : ∀ (n s : ℕ),
    List.Chain' hourStep
      ((List.range' s n).map (fun h => (⟨t0 + h * ONE_HOUR, v⟩ : FillCandle))) := by
  intro n
  induction n with
  | zero => intro s; simp
  | succ n ih =>
    intro s
    rw [List.range'_succ, List.map_cons, List.chain'_cons']
    refine ⟨?_, ih (s + 1)⟩
    intro y hy
    cases n with
    | zero => simp at hy
    | succ m =>
      rw [List.range'_succ, List.map_cons, List.head?_cons] at hy
      simp only [Option.mem_def, Option.some.injEq] at hy
      subst hy
      simp only [hourStep, ONE_HOUR]
      omega

lemma chain_block (c : FillCandle) (m : ℕ) :
    List.Chain' hourStep
      (c :: (List.range' 1 m).map
        (fun h => (⟨c.periodStartUnix + h * ONE_HOUR, c.close⟩ : FillCandle))) := by
  rw [List.chain'_cons']
  refine ⟨?_, chain_progression c.periodStartUnix c.close m 1⟩
  intro y hy
  cases m with
  | zero => simp at hy
  | succ k =>
    rw [List.range'_succ, List.map_cons, List.head?_cons] at hy
    simp only [Option.mem_def, Option.some.injEq] at hy
    subst hy
    simp only [hourStep, ONE_HOUR]
    omega

lemma getLast?_cons_ne_nil {α : Type} (x : α) {l : List α} (h : l ≠ []) :
    (x :: l).getLast? = l.getLast? := by
  cases l with
  | nil => exact absurd rfl h
  | cons y ys => rw [List.getLast?_cons_cons]

lemma getLast?_progression (t0 : ℕ) (v : ℚ) (n s : ℕ) (hn : 1 ≤ n) :
    ((List.range' s n).map (fun h => (⟨t0 + h * ONE_HOUR, v⟩ : FillCandle))).getLast?
      = some ⟨t0 + (s + n - 1) * ONE_HOUR, v⟩ := by
  obtain ⟨m, rfl⟩ : ∃ m, n = m + 1 := ⟨n - 1, by omega⟩
  rw [List.range'_concat, List.map_append, List.map_cons, List.map_nil,
    List.getLast?_concat]
  have harith : s + 1 * m = s + (m + 1) - 1 := by omega
  rw [harith]

lemma getLast?_block (c : FillCandle) (m : ℕ) :
    ((c :: (List.range' 1 m).map
        (fun h => (⟨c.periodStartUnix + h * ONE_HOUR, c.close⟩ : FillCandle)))).getLast?
      = some (if m = 0 then c
          else ⟨c.periodStartUnix + m * ONE_HOUR, c.close⟩) := by
  cases m with
  | zero => simp
  | succ k =>
    rw [if_neg (Nat.succ_ne_zero k)]
    rw [getLast?_cons_ne_nil _ (by simp [List.range'_succ])]
    rw [getLast?_progression _ _ _ _ (by omega)]
    have harith : 1 + (k + 1) - 1 = k + 1 := by omega
    rw [harith]

lemma ffGo_head? (effMax : ℕ) (c : FillCandle) (rest : List FillCandle)
    (hc : c.periodStartUnix ≤ effMax) :
    (ffGo effMax (c :: rest)).head? = some c := by
  cases rest with
  | nil => rw [ffGo, if_pos hc]; rfl
  | cons c' rest' => rw [ffGo, if_pos hc]; rfl

lemma ffGo_chain (effMax : ℕ) : ∀ (l : List FillCandle),
    l.Pairwise (fun a b => a.periodStartUnix < b.periodStartUnix) →
    List.Chain' hourStep (ffGo effMax l) := by
  intro l
  induction l with
  | nil => intro _; simp [ffGo]
  | cons c rest ih =>
    intro hs
    cases rest with
    | nil =>
      by_cases hc : c.periodStartUnix ≤ effMax
      · rw [ffGo, if_pos hc, tailfills_canonical, List.singleton_append]
        exact chain_block c _
      · rw [ffGo, if_neg hc]
        have hk : (effMax - c.periodStartUnix) / ONE_HOUR = 0 := by
          simp only [ONE_HOUR]
          omega
        simp [whileFillTimes, hk]
    | cons c' rest' =>
      by_cases hc : c.periodStartUnix ≤ effMax
      · have hlt : c.periodStartUnix < c'.periodStartUnix :=
          (List.pairwise_cons.mp hs).1 c' (List.mem_cons_self _ _)
        rw [ffGo, if_pos hc, fills_canonical, List.singleton_append,
          List.chain'_append]
        refine ⟨chain_block c _, ih (List.pairwise_cons.mp hs).2, ?_⟩
        intro x hx y hy
        by_cases hc' : c'.periodStartUnix ≤ effMax
        · rw [ffGo_head? effMax c' rest' hc'] at hy
          simp only [Option.mem_def, Option.some.injEq] at hy
          subst hy
          rw [getLast?_block] at hx
          simp only [Option.mem_def, Option.some.injEq] at hx
          subst hx
          by_cases hm : min ((c'.periodStartUnix - c.periodStartUnix - 1) / ONE_HOUR)
              ((effMax - c.periodStartUnix) / ONE_HOUR) = 0
          · rw [if_pos hm]
            simp only [ONE_HOUR] at hm
            simp only [hourStep]
            omega
          · rw [if_neg hm]
            simp only [ONE_HOUR] at hm
            simp only [hourStep, ONE_HOUR]
            omega
        · have hnil : ffGo effMax (c' :: rest') = [] := by
            refine ffGo_eq_nil effMax _ (fun x hx => ?_)
            rcases List.mem_cons.mp hx with rfl | hx
            · omega
            · have := (List.pairwise_cons.mp (List.pairwise_cons.mp hs).2).1 x hx
              omega
          rw [hnil] at hy
          simp at hy
      · have hnil : ffGo effMax (c :: c' :: rest') = [] := by
          refine ffGo_eq_nil effMax _ (fun x hx => ?_)
          rcases List.mem_cons.mp hx with rfl | hx
          · omega
          · have := (List.pairwise_cons.mp hs).1 x hx
            omega
        rw [hnil]
        exact List.chain'_nil

/-- **C2.** For a strictly ascending input series, the forward-filled series
steps strictly forward in time with consecutive gaps of at most one bucket
width (3600 s), and no emitted point exceeds the effective ceiling
`min maxTimestamp now`. -/
theorem forwardFill_bound (candles : List FillCandle) (maxTimestamp now : ℕ)
    (hs : candles.Pairwise (fun a b => a.periodStartUnix < b.periodStartUnix)) :
    List.Chain' hourStep (forwardFillCandles candles maxTimestamp now)
    ∧ ∀ x ∈ forwardFillCandles candles maxTimestamp now,
        x.periodStartUnix ≤ min maxTimestamp now := by
  unfold forwardFillCandles
  by_cases he : candles.isEmpty
  · rw [if_pos he]
    obtain rfl : candles = [] := List.isEmpty_iff.mp he
    exact ⟨List.chain'_nil, by simp⟩
  · rw [if_neg he]
    exact ⟨ffGo_chain _ candles hs, ffGo_mem_le _ candles⟩

/-- Witness for C2: a two-candle series with a two-bucket hole. -/
theorem forwardFill_bound_witness :
    List.Chain' hourStep (forwardFillCandles [⟨0, 1⟩, ⟨10800, 2⟩] 14400 999999)
    ∧ ∀ x ∈ forwardFillCandles [⟨0, 1⟩, ⟨10800, 2⟩] 14400 999999,
        x.periodStartUnix ≤ min 14400 999999 :=
  forwardFill_bound [⟨0, 1⟩, ⟨10800, 2⟩] 14400 999999 (by decide)

/-- **C3 counterexample**: a single-candle series is not returned unchanged —
with candle at 0, ceiling 7200 and current time 7200 the result has three
points, the candle plus two forward-filled buckets. -/
theorem forwardFill_single_changed :
    forwardFillCandles [⟨0, 10⟩] 7200 7200
        = [⟨0, 10⟩, ⟨3600, 10⟩, ⟨7200, 10⟩]
    ∧ forwardFillCandles [⟨0, 10⟩] 7200 7200 ≠ [⟨0, 10⟩] := by
  refine ⟨by decide, by decide⟩

/-- **C3 (amended).** An empty series is returned unchanged; a single-candle
series keeps the candle (when within the effective ceiling) and repeats its
close in hourly buckets up to the effective ceiling — it is unchanged only
when no such bucket fits. -/
theorem forwardFill_small_series (c : FillCandle) (T now : ℕ) :
    forwardFillCandles [] T now = []
    ∧ (∀ x ∈ forwardFillCandles [c] T now,
        x.close = c.close
          ∧ ∃ k, x.periodStartUnix = c.periodStartUnix + k * 3600
          ∧ x.periodStartUnix ≤ min T now)
    ∧ (∀ k, c.periodStartUnix + k * 3600 ≤ min T now →
        (⟨c.periodStartUnix + k * 3600, c.close⟩ : FillCandle)
          ∈ forwardFillCandles [c] T now) := by
  refine ⟨rfl, ?_, ?_⟩
  · intro x hx
    rw [forwardFillCandles, if_neg (by simp), ffGo, tailfills_canonical] at hx
    rcases List.mem_append.mp hx with hx | hx
    · by_cases hc : c.periodStartUnix ≤ min T now
      · rw [if_pos hc] at hx
        rcases List.mem_singleton.mp hx with rfl
        exact ⟨rfl, 0, by omega, hc⟩
      · rw [if_neg hc] at hx
        cases hx
    · obtain ⟨h, hh, rfl⟩ := List.mem_map.mp hx
      obtain ⟨h1, h2⟩ := List.mem_range'_1.mp hh
      refine ⟨rfl, h, by simp [ONE_HOUR], ?_⟩
      simp only [ONE_HOUR] at h2 ⊢
      omega
  · intro k hk
    rw [forwardFillCandles, if_neg (by simp), ffGo, tailfills_canonical]
    cases k with
    | zero =>
      refine List.mem_append_left _ ?_
      rw [if_pos (by omega)]
      have : c.periodStartUnix + 0 * 3600 = c.periodStartUnix := by omega
      rw [this]
      exact List.mem_singleton.mpr rfl
    | succ j =>
      refine List.mem_append_right _ ?_
      refine List.mem_map.mpr ⟨j + 1, ?_, by simp [ONE_HOUR]⟩
      refine List.mem_range'_1.mpr ⟨by omega, ?_⟩
      simp only [ONE_HOUR]
      omega

/-- Witness for C3 (amended): the single candle at 0 with ceiling 7200 and
current time 7200 contains the bucket at 7200. -/
theorem forwardFill_small_series_witness :
    ((⟨0 + 2 * 3600, 10⟩ : FillCandle) ∈ forwardFillCandles [⟨0, 10⟩] 7200 7200) :=
  (forwardFill_small_series ⟨0, 10⟩ 7200 7200).2.2 2 (by decide)

-- ---------------------------------------------------------------------------
-- combineHopCandles: forward-fill join correctness (C1)
-- ---------------------------------------------------------------------------

/-- Spec-side carried-forward value: the value of a hop's most recent candle
at or before `t` (the last such candle in an ascending series). -/
def carried (hop : List Candle) (t : ℕ) : Option ℚ :=
  ((hop.filter (fun c => decide (c.time ≤ t))).getLast?).map (·.value)

/-- `carried` below an optional bound; `none` is "before every timestamp". -/
def carriedO (hop : List Candle) : Option ℕ → Option ℚ
  | none => none
  | some b => carried hop b

/-- Spec-side initialisation predicate: the hop has at least one observation
at or before `t`. -/
def initialized (hop : List Candle) (t : ℕ) : Bool :=
  hop.any (fun c => decide (c.time ≤ t))

lemma hopLookup_skip (t : ℕ) (hop : List Candle) (acc : Option ℚ)
    (h : ∀ c ∈ hop, c.time ≠ t) :
    hop.foldl (fun acc c => if c.time = t then some c.value else acc) acc = acc := by
  induction hop generalizing acc with
  | nil => rfl
  | cons c rest ih =>
    rw [List.foldl_cons, if_neg (h c (List.mem_cons_self _ _))]
    exact ih acc (fun x hx => h x (List.mem_cons_of_mem _ hx))

lemma hopLookup_not_mem (hop : List Candle) (t : ℕ)
    (h : ∀ c ∈ hop, c.time ≠ t) : hopLookup hop t = none :=
  hopLookup_skip t hop none h

lemma hopLookup_mem (hop : List Candle)
    (hsort : hop.Pairwise (fun a b => a.time < b.time))
    (c : Candle) (hc : c ∈ hop) (t : ℕ) (ht : c.time = t) :
    hopLookup hop t = some c.value := by
  induction hop with
  | nil => cases hc
  | cons x rest ih =>
    rw [hopLookup, List.foldl_cons]
    rcases List.mem_cons.mp hc with rfl | hc
    · rw [if_pos ht]
      refine hopLookup_skip t rest _ (fun y hy => ?_)
      have := (List.pairwise_cons.mp hsort).1 y hy
      omega
    · have hxc : x.time < c.time := (List.pairwise_cons.mp hsort).1 c hc
      rw [if_neg (by omega)]
      exact ih (List.pairwise_cons.mp hsort).2 hc

lemma filter_le_getLast (hop : List Candle)
    (hsort : hop.Pairwise (fun a b => a.time < b.time))
    (c : Candle) (hc : c ∈ hop) (t : ℕ) (ht : c.time = t) :
    (hop.filter (fun x => decide (x.time ≤ t))).getLast? = some c := by
  induction hop with
  | nil => cases hc
  | cons x rest ih =>
    rcases List.mem_cons.mp hc with rfl | hc
    · have hrest : rest.filter (fun y => decide (y.time ≤ t)) = [] := by
        refine List.filter_eq_nil_iff.mpr (fun y hy => ?_)
        have := (List.pairwise_cons.mp hsort).1 y hy
        simp only [decide_eq_true_eq]
        omega
      rw [List.filter_cons, if_pos (by simp [ht]), hrest]
      rfl
    · have hxc : x.time < c.time := (List.pairwise_cons.mp hsort).1 c hc
      have hxle : x.time ≤ t := by omega
      have hmemf : c ∈ rest.filter (fun x => decide (x.time ≤ t)) :=
        List.mem_filter.mpr ⟨hc, by simp [ht]⟩
      rw [List.filter_cons, if_pos (by simpa using hxle),
        getLast?_cons_ne_nil x (List.ne_nil_of_mem hmemf)]
      exact ih (List.pairwise_cons.mp hsort).2 hc

lemma carried_isSome_iff (hop : List Candle) (t : ℕ) :
    (carried hop t).isSome = true ↔ ∃ c ∈ hop, c.time ≤ t := by
  simp only [carried, Option.isSome_map']
  rw [List.getLast?_isSome]
  constructor
  · intro hne
    obtain ⟨c, hc⟩ := List.exists_mem_of_ne_nil _ hne
    obtain ⟨h1, h2⟩ := List.mem_filter.mp hc
    exact ⟨c, h1, by simpa using h2⟩
  · rintro ⟨c, hc, hle⟩
    exact List.ne_nil_of_mem (List.mem_filter.mpr ⟨hc, by simpa using hle⟩)

lemma isSome_carried (hop : List Candle) (t : ℕ) :
    (carried hop t).isSome = initialized hop t := by
  rw [Bool.eq_iff_iff, carried_isSome_iff, initialized, List.any_eq_true]
  simp only [decide_eq_true_eq]

/-- One hop's slot after the inner refresh loop at timestamp `t` equals the
spec-side carried value at `t`, provided every hop timestamp is at `t`,
at or below the previous bound, or in the future. -/
lemma step_one (hop : List Candle) (b : Option ℕ) (t : ℕ)
    (hsort : hop.Pairwise (fun a b => a.time < b.time))
    (hb : ∀ x, b = some x → x < t)
    (hclass : ∀ c ∈ hop, c.time = t ∨ (∃ x, b = some x ∧ c.time ≤ x) ∨ t < c.time) :
    (match hopLookup hop t with
     | some v => some v
     | none => carriedO hop b) = carried hop t := by
  by_cases hex : ∃ c ∈ hop, c.time = t
  · obtain ⟨c, hc, ht⟩ := hex
    rw [hopLookup_mem hop hsort c hc t ht]
    rw [carried, filter_le_getLast hop hsort c hc t ht]
    rfl
  · push_neg at hex
    rw [hopLookup_not_mem hop t hex]
    cases b with
    | none =>
      have hfe : hop.filter (fun x => decide (x.time ≤ t)) = [] := by
        refine List.filter_eq_nil_iff.mpr (fun c hc => ?_)
        rcases hclass c hc with h | ⟨x, hx, _⟩ | h
        · exact absurd h (hex c hc)
        · cases hx
        · simp only [decide_eq_true_eq]
          omega
      simp [carriedO, carried, hfe]
    | some x =>
      have hx : x < t := hb x rfl
      have hcong : hop.filter (fun c => decide (c.time ≤ t))
          = hop.filter (fun c => decide (c.time ≤ x)) := by
        refine List.filter_congr (fun c hc => ?_)
        rcases hclass c hc with h | ⟨x', hx', hle⟩ | h
        · exact absurd h (hex c hc)
        · obtain rfl : x = x' := by simpa using hx'
          simp only [decide_eq_decide]
          omega
        · simp only [decide_eq_decide]
          omega
      simp only [carriedO, carried, hcong]

/-- The whole refresh loop at timestamp `t` maps every hop to its spec-side
carried value. -/
lemma stepHops_eq (hops : List (List Candle)) (b : Option ℕ) (t : ℕ)
    (hsorted : ∀ hop ∈ hops, hop.Pairwise (fun a b => a.time < b.time))
    (hb : ∀ x, b = some x → x < t)
    (hclass : ∀ hop ∈ hops, ∀ c ∈ hop,
      c.time = t ∨ (∃ x, b = some x ∧ c.time ≤ x) ∨ t < c.time) :
    stepHops hops (hops.map (fun hop => carriedO hop b)) t
      = hops.map (fun hop => carried hop t) := by
  rw [stepHops, List.zipWith_map_right, List.zipWith_same]
  refine List.map_congr_left (fun hop hhop => ?_)
  exact step_one hop b t (hsorted hop hhop) hb (hclass hop hhop)

/-- The outer loop of `combineHopCandles`, walking a strictly ascending list
of timestamps that covers every hop timestamp above the bound `b`, emits
exactly the timestamps at which every hop is initialised, valued at the
product of the carried-forward values. -/
lemma combineGo_spec (hops : List (List Candle))
    (hsorted : ∀ hop ∈ hops, hop.Pairwise (fun a b => a.time < b.time)) :
    ∀ (ts : List ℕ) (b : Option ℕ),
    ts.Pairwise (· < ·) →
    (∀ t ∈ ts, ∀ x, b = some x → x < t) →
    (∀ hop ∈ hops, ∀ c ∈ hop, c.time ∈ ts ∨ ∃ x, b = some x ∧ c.time ≤ x) →
    combineGo hops ts (hops.map (fun hop => carriedO hop b))
      = ts.filterMap (fun t =>
          if (hops.map (fun hop => carried hop t)).all Option.isSome
          then some ⟨t, ((hops.map (fun hop => carried hop t)).map
              (fun o => o.getD 0)).prod⟩
          else none) := by
  intro ts
  induction ts with
  | nil => intro b _ _ _; rfl
  | cons t ts ih =>
    intro b hts hb hcover
    have hclass : ∀ hop ∈ hops, ∀ c ∈ hop,
        c.time = t ∨ (∃ x, b = some x ∧ c.time ≤ x) ∨ t < c.time := by
      intro hop hhop c hc
      rcases hcover hop hhop c hc with hmem | hle
      · rcases List.mem_cons.mp hmem with h | h
        · exact Or.inl h
        · exact Or.inr (Or.inr ((List.pairwise_cons.mp hts).1 _ h))
      · exact Or.inr (Or.inl hle)
    have hb' : ∀ x, b = some x → x < t :=
      fun x hx => hb t (List.mem_cons_self _ _) x hx
    have hrec : combineGo hops ts (hops.map (fun hop => carried hop t))
        = ts.filterMap (fun t' =>
            if (hops.map (fun hop => carried hop t')).all Option.isSome
            then some ⟨t', ((hops.map (fun hop => carried hop t')).map
                (fun o => o.getD 0)).prod⟩
            else none) := by
      have hb2 : ∀ t' ∈ ts, ∀ x, (some t : Option ℕ) = some x → x < t' := by
        intro t' ht' x hx
        obtain rfl : t = x := by simpa using hx
        exact (List.pairwise_cons.mp hts).1 t' ht'
      have hcover2 : ∀ hop ∈ hops, ∀ c ∈ hop,
          c.time ∈ ts ∨ ∃ x, (some t : Option ℕ) = some x ∧ c.time ≤ x := by
        intro hop hhop c hc
        rcases hcover hop hhop c hc with hmem | ⟨x, hx, hle⟩
        · rcases List.mem_cons.mp hmem with h | h
          · exact Or.inr ⟨t, rfl, le_of_eq h⟩
          · exact Or.inl h
        · have hxt : x < t := hb' x hx
          exact Or.inr ⟨t, rfl, by omega⟩
      exact ih (some t) (List.pairwise_cons.mp hts).2 hb2 hcover2
    simp only [combineGo]
    rw [stepHops_eq hops b t hsorted hb' hclass]
    rw [List.filterMap_cons]
    by_cases hall : ((hops.map (fun hop => carried hop t)).all Option.isSome) = true
    · simp only [if_pos hall]
      rw [hrec]
    · simp only [if_neg hall]
      rw [hrec]

lemma list_all_map {α β : Type} (f : α → β) (p : β → Bool) (l : List α) :
    (l.map f).all p = l.all (fun a => p (f a)) := by
  induction l with
  | nil => rfl
  | cons a l ih =>
    simp only [List.map_cons, List.all_cons, ih]

lemma pairwise_lt_of_le_nodup (l : List ℕ)
    (hs : l.Pairwise (· ≤ ·)) (hn : l.Nodup) : l.Pairwise (· < ·) := by
  induction l with
  | nil => exact List.Pairwise.nil
  | cons a rest ih =>
    rw [List.pairwise_cons] at hs ⊢
    rw [List.nodup_cons] at hn
    refine ⟨fun b hb => ?_, ih hs.2 hn.2⟩
    refine lt_of_le_of_ne (hs.1 b hb) (fun h => ?_)
    exact hn.1 (h ▸ hb)

lemma sortedUnionTimes_sorted_lt (hops : List (List Candle)) :
    (sortedUnionTimes hops).Pairwise (· < ·) := by
  refine pairwise_lt_of_le_nodup _ (List.sorted_insertionSort _ _) ?_
  exact (List.perm_insertionSort _ _).nodup_iff.mpr (List.nodup_dedup _)

lemma sortedUnionTimes_mem (hops : List (List Candle)) (t : ℕ) :
    t ∈ sortedUnionTimes hops ↔ ∃ hop ∈ hops, ∃ c ∈ hop, c.time = t := by
  rw [sortedUnionTimes, (List.perm_insertionSort _ _).mem_iff, List.mem_dedup,
    allTimes, List.mem_flatten]
  constructor
  · rintro ⟨l, hl, hmem⟩
    obtain ⟨hop, hhop, rfl⟩ := List.mem_map.mp hl
    obtain ⟨c, hc, ht⟩ := List.mem_map.mp hmem
    exact ⟨hop, hhop, c, hc, ht⟩
  · rintro ⟨hop, hhop, c, hc, ht⟩
    exact ⟨hop.map (·.time), List.mem_map_of_mem _ hhop,
      ht ▸ List.mem_map_of_mem _ hc⟩

lemma times_of_emitted (cond : ℕ → Bool) (v : ℕ → ℚ) : ∀ ts : List ℕ,
    ((ts.filterMap (fun t => if cond t then some (⟨t, v t⟩ : Candle) else none)).map
        (·.time)) = ts.filter cond := by
  intro ts
  induction ts with
  | nil => rfl
  | cons t ts ih =>
    rw [List.filterMap_cons, List.filter_cons]
    by_cases h : cond t = true
    · simp only [if_pos h]
      rw [List.map_cons, ih]
    · simp only [if_neg h]
      exact ih

/-- **C1.** For two or more strictly ascending hop series,
`combineHopCandles` emits exactly those timestamps of the union of all hops'
timestamps at which every hop has an observation at or before it (so nothing
is emitted before every hop has produced a value), and each emitted value is
the product over all hops of the hop's most recently observed value at or
before that timestamp. -/
theorem combineHopCandles_correct (hops : List (List Candle))
    (h2 : 2 ≤ hops.length)
    (hsorted : ∀ hop ∈ hops, hop.Pairwise (fun a b => a.time < b.time)) :
    ((combineHopCandles hops).map (·.time)
        = (sortedUnionTimes hops).filter
            (fun t => hops.all (fun hop => initialized hop t)))
    ∧ (∀ t : ℕ, t ∈ sortedUnionTimes hops ↔ ∃ hop ∈ hops, ∃ c ∈ hop, c.time = t)
    ∧ (∀ p ∈ combineHopCandles hops,
        p.value = (hops.map (fun hop => (carried hop p.time).getD 0)).prod
          ∧ ∀ hop ∈ hops, ∃ c ∈ hop, c.time ≤ p.time) := by
  have hcomb : combineHopCandles hops
      = (sortedUnionTimes hops).filterMap (fun t =>
          if (hops.map (fun hop => carried hop t)).all Option.isSome
          then some ⟨t, ((hops.map (fun hop => carried hop t)).map
              (fun o => o.getD 0)).prod⟩
          else none) := by
    rw [combineHopCandles, if_neg (by omega), if_neg (by omega)]
    exact combineGo_spec hops hsorted (sortedUnionTimes hops) none
      (sortedUnionTimes_sorted_lt hops)
      (fun t _ x hx => by cases hx)
      (fun hop hhop c hc => Or.inl ((sortedUnionTimes_mem hops c.time).mpr
        ⟨hop, hhop, c, hc, rfl⟩))
  have hcondeq : ∀ t : ℕ, ((hops.map (fun hop => carried hop t)).all Option.isSome)
      = hops.all (fun hop => initialized hop t) := by
    intro t
    rw [list_all_map, Bool.eq_iff_iff, List.all_eq_true, List.all_eq_true]
    constructor
    · intro h hop hhop
      rw [← isSome_carried]
      exact h hop hhop
    · intro h hop hhop
      rw [isSome_carried]
      exact h hop hhop
  refine ⟨?_, sortedUnionTimes_mem hops, ?_⟩
  · rw [hcomb]
    have hfeq : (fun t => if (hops.map (fun hop => carried hop t)).all Option.isSome
          then some (⟨t, ((hops.map (fun hop => carried hop t)).map
              (fun o => o.getD 0)).prod⟩ : Candle)
          else none)
        = (fun t => if hops.all (fun hop => initialized hop t)
            then some (⟨t, ((hops.map (fun hop => carried hop t)).map
                (fun o => o.getD 0)).prod⟩ : Candle)
            else none) := by
      funext t
      rw [hcondeq t]
    rw [hfeq]
    exact times_of_emitted (fun t => hops.all (fun hop => initialized hop t))
      (fun t => ((hops.map (fun hop => carried hop t)).map (fun o => o.getD 0)).prod)
      (sortedUnionTimes hops)
  · intro p hp
    rw [hcomb] at hp
    obtain ⟨t, ht, hft⟩ := List.mem_filterMap.mp hp
    by_cases hall : ((hops.map (fun hop => carried hop t)).all Option.isSome) = true
    · rw [if_pos hall] at hft
      have hp' : p = ⟨t, ((hops.map (fun hop => carried hop t)).map
          (fun o => o.getD 0)).prod⟩ := by
        simpa using hft.symm
      subst hp'
      constructor
      · simp only [List.map_map]
        rfl
      · intro hop hhop
        have hsome : (carried hop t).isSome = true := by
          have := List.all_eq_true.mp hall _ (List.mem_map_of_mem _ hhop)
          simpa using this
        exact (carried_isSome_iff hop t).mp hsome
    · rw [if_neg hall] at hft
      cases hft

/-- Witness for C1: two hops `[(1, 2), (3, 5)]` and `[(2, 7)]`. -/
theorem combineHopCandles_correct_witness :
    ((combineHopCandles [[⟨1, 2⟩, ⟨3, 5⟩], [⟨2, 7⟩]]).map (·.time)
        = (sortedUnionTimes [[⟨1, 2⟩, ⟨3, 5⟩], [⟨2, 7⟩]]).filter
            (fun t => [[(⟨1, 2⟩ : Candle), ⟨3, 5⟩], [⟨2, 7⟩]].all
              (fun hop => initialized hop t)))
    ∧ (∀ t : ℕ, t ∈ sortedUnionTimes [[⟨1, 2⟩, ⟨3, 5⟩], [⟨2, 7⟩]]
        ↔ ∃ hop ∈ [[(⟨1, 2⟩ : Candle), ⟨3, 5⟩], [⟨2, 7⟩]], ∃ c ∈ hop, c.time = t)
    ∧ (∀ p ∈ combineHopCandles [[⟨1, 2⟩, ⟨3, 5⟩], [⟨2, 7⟩]],
        p.value = ([[(⟨1, 2⟩ : Candle), ⟨3, 5⟩], [⟨2, 7⟩]].map
            (fun hop => (carried hop p.time).getD 0)).prod
          ∧ ∀ hop ∈ [[(⟨1, 2⟩ : Candle), ⟨3, 5⟩], [⟨2, 7⟩]], ∃ c ∈ hop, c.time ≤ p.time) :=
  combineHopCandles_correct [[⟨1, 2⟩, ⟨3, 5⟩], [⟨2, 7⟩]] (by decide) (by decide)

-- ---------------------------------------------------------------------------
-- fetchSpotCandles (C9): config parsing and the catch-all error envelope
-- ---------------------------------------------------------------------------

/-- One hop of a multi-hop ticker; `quote` is `undefined` when the hop text
has no `/`. -/
structure Hop where
  base : JSString
  quote : Option JSString
  invert : Bool

/-- The object built by `parseConfig`. -/
structure SpotConfig where
  isMultiHop : Bool
  hops : List Hop
  poolAddress : Option JSString
  base : Option JSString
  quote : Option JSString
  rateProvider : Option JSString
  interval : JSString
  limit : Option ℕ
  network : JSString
  invert : Bool

/-- The pool record used by `fetchSpotCandles` (`address`, `name`). -/
structure PoolInfo where
  address : JSString
  name : JSString

/-- JS string-or-default `s || d` (empty string and `undefined` are falsy). -/
def orDefault (s d : JSString) : JSString := if s = [] then d else s

/-- `tokenPart.split('::')` destructured into its first two fields: the text
before the first `::` and the text after it, when `::` occurs. -/
def splitFirstDoubleColon : JSString → Option (JSString × JSString)
  | [] => none
  | ':' :: ':' :: rest => some ([], rest)
  | c :: rest => (splitFirstDoubleColon rest).map (fun p => (c :: p.1, p.2))

/-- JS `parseInt` on the numeric strings used here: the leading digit run, or
`NaN` (`none`) when there is none. -/
def jsParseInt (s : JSString) : Option ℕ :=
  let digits := s.takeWhile (fun c => c.isDigit)
  if digits = [] then none
  else some (digits.foldl (fun n c => n * 10 + (c.toNat - 48)) 0)

/-- `parseConfig(input)`.  `decode` is `decodeURIComponent`, which can throw
(a `URIError` on malformed input), hence the `Except`; everything else is
pure string work. -/
def parseConfig (decode : JSString → Except JSString JSString) (input : JSString) :
    Except JSString (Option SpotConfig) := do
  if input = [] then return none
  let decoded ← if ('%' : Char) ∈ input then decode input else pure input
  let parts := decoded.splitOn '-'
  let tokenPart := parts.getD 0 []
  let invert := jsToLower (parts.getD (parts.length - 1) []) = "invert".data
  let partsWithoutInvert := if invert then parts.dropLast else parts
  let interval := orDefault (partsWithoutInvert.getD 1 []) "hour".data
  let limit := jsParseInt (orDefault (partsWithoutInvert.getD 2 []) "500".data)
  let network := orDefault (partsWithoutInvert.getD 3 []) "xdai".data
  if ('+' : Char) ∈ tokenPart then
    let hops := (tokenPart.splitOn '+').map (fun hop =>
      let invertHop : Bool := match hop with
        | '!' :: _ => true
        | _ => false
      let cleanHop := if invertHop then hop.tail else hop
      let segs := cleanHop.splitOn '/'
      ({ base := segs.getD 0 [], quote := segs[1]?, invert := invertHop } : Hop))
    return some
      { isMultiHop := true, hops := hops, poolAddress := none, base := none,
        quote := none, rateProvider := none, interval := interval, limit := limit,
        network := network, invert := invert }
  else if "0x".data.isPrefixOf (jsToLower tokenPart) ∧ ('/' : Char) ∉ tokenPart then
    let pa := match splitFirstDoubleColon tokenPart with
      | some (a, b) => (a, some b)
      | none => (tokenPart, none)
    return some
      { isMultiHop := false, hops := [], poolAddress := some pa.1, base := none,
        quote := none, rateProvider := pa.2, interval := interval, limit := limit,
        network := network, invert := invert }
  else
    let segs := tokenPart.splitOn '/'
    let baseWithRate := segs.getD 0 []
    let br := match splitFirstDoubleColon baseWithRate with
      | some (a, b) => (a, some b)
      | none => (baseWithRate, none)
    return some
      { isMultiHop := false, hops := [], poolAddress := none, base := some br.1,
        quote := segs[1]?, rateProvider := br.2, interval := interval,
        limit := limit, network := network, invert := invert }

/-- The effectful boundary of the spot-price service: `decodeURIComponent`,
`searchPool` (throws on fetch failure or when no pool matches), the OHLCV
fetch (throws on non-OK status), and `getRate` (total: it catches its own
errors and falls back to `1`). -/
structure SpotEnv where
  decode : JSString → Except JSString JSString
  searchPool : JSString → JSString → Option JSString → Except JSString PoolInfo
  ohlcv : JSString → JSString → JSString → Option ℕ → Except JSString (List OhlcvRow)
  getRate : JSString → JSString → ℚ

/-- `fetchCandlesFromGecko(poolAddress, network, interval, limit)`: resolve
the timeframe from the interval text, fetch rows, then apply the pure
transformation. -/
def fetchCandlesFromGecko (env : SpotEnv) (poolAddress network interval : JSString)
    (limit : Option ℕ) : Except JSString (List Candle) := do
  let timeframe :=
    if ("hour".data : JSString) <:+: interval then "hour".data
    else if ("min".data : JSString) <:+: interval then "minute".data
    else "day".data
  let rows ← env.ohlcv poolAddress network timeframe limit
  return geckoCandleTransform rows

/-- `fetchHopCandles(hop, network, interval, limit)` with per-hop inversion. -/
def fetchHopCandles (env : SpotEnv) (hop : Hop) (network interval : JSString)
    (limit : Option ℕ) : Except JSString (List Candle) := do
  let pool ← env.searchPool network hop.base hop.quote
  let candles ← fetchCandlesFromGecko env pool.address network interval limit
  return if hop.invert then invertCandles candles else candles

/-- `if (limit) config.limit = limit` — the override applies only to a
truthy (non-null, non-zero, non-NaN) limit argument. -/
def applyLimit (cfg : SpotConfig) (limit : Option ℕ) : SpotConfig :=
  match limit with
  | some l => if l ≠ 0 then { cfg with limit := some l } else cfg
  | none => cfg

/-- The single-pool `if (config.poolAddress) … else searchPool(…)` block. -/
def resolvePool (env : SpotEnv) (cfg : SpotConfig) : Except JSString PoolInfo :=
  match cfg.poolAddress with
  | some pa => pure ⟨pa, "Direct Pool".data⟩
  | none => env.searchPool cfg.network (cfg.base.getD []) cfg.quote

/-- The `{candles, price, rate, pool, error}` response object. -/
structure SpotResult where
  candles : List Candle
  price : Option ℚ
  rate : Option ℚ
  pool : Option JSString
  error : Option JSString
deriving DecidableEq

/-- The body of `fetchSpotCandles`'s `try` block. -/
def fetchSpotCandlesRun (env : SpotEnv) (configString : JSString)
    (limit : Option ℕ) : Except JSString SpotResult := do
  let cfg? ← parseConfig env.decode configString
  match cfg? with
  | none => return ⟨[], none, none, none, some "Invalid config".data⟩
  | some cfg₀ =>
    let cfg := applyLimit cfg₀ limit
    if cfg.isMultiHop then
      let hopCandlesArray ← cfg.hops.mapM
        (fun hop => fetchHopCandles env hop cfg.network cfg.interval cfg.limit)
      let combined := combineHopCandles hopCandlesArray
      let candles := if cfg.invert then invertCandles combined else combined
      let latestPrice := (candles.getLast?).map (·.value)
      let hopNames := List.intercalate " → ".data
        (cfg.hops.map (fun h => h.base ++ "/".data ++ h.quote.getD "undefined".data))
      return ⟨candles, latestPrice, none, some hopNames, none⟩
    else do
      let pool ← resolvePool env cfg
      let fetched ← fetchCandlesFromGecko env pool.address cfg.network cfg.interval cfg.limit
      let rated : ℚ × List Candle := match cfg.rateProvider with
        | some rp =>
          let r := env.getRate rp cfg.network
          (r, fetched.map (fun c : Candle => Candle.mk c.time (c.value / r)))
        | none => ((1 : ℚ), fetched)
      let candles := if cfg.invert then invertCandles rated.2 else rated.2
      let latestPrice := (candles.getLast?).map (·.value)
      return ⟨candles, latestPrice, some rated.1, some pool.address, none⟩

/-- `fetchSpotCandles` proper: the `try`/`catch` envelope around the body. -/
def fetchSpotCandles (env : SpotEnv) (configString : JSString)
    (limit : Option ℕ) : SpotResult :=
  match fetchSpotCandlesRun env configString limit with
  | .ok r => r
  | .error e => ⟨[], none, none, none, some e⟩

/-- Every successful run of the `try` body carries `error: null`, except the
invalid-config early return, which carries empty candles and a null price. -/
lemma run_ok_shape (env : SpotEnv) (cs : JSString) (lim : Option ℕ)
    (r : SpotResult) (h : fetchSpotCandlesRun env cs lim = .ok r) :
    r.error = none
    ∨ (r.candles = [] ∧ r.price = none ∧ r.error = some "Invalid config".data) := by
  unfold fetchSpotCandlesRun at h
  cases hp : parseConfig env.decode cs with
  | error e =>
    rw [hp] at h
    simp only [bind, Except.bind] at h
    cases h
  | ok cfg? =>
    rw [hp] at h
    simp only [bind, Except.bind] at h
    cases cfg? with
    | none =>
      simp only [pure, Except.pure, Except.ok.injEq] at h
      subst h
      exact Or.inr ⟨rfl, rfl, rfl⟩
    | some cfg₀ =>
      simp only at h
      by_cases hmh : (applyLimit cfg₀ lim).isMultiHop = true
      · rw [if_pos hmh] at h
        cases hm : (applyLimit cfg₀ lim).hops.mapM
            (fun hop => fetchHopCandles env hop (applyLimit cfg₀ lim).network
              (applyLimit cfg₀ lim).interval (applyLimit cfg₀ lim).limit) with
        | error e =>
          rw [hm] at h
          simp only [bind, Except.bind] at h
          cases h
        | ok hopCandlesArray =>
          rw [hm] at h
          simp only [bind, Except.bind, pure, Except.pure, Except.ok.injEq] at h
          subst h
          exact Or.inl rfl
      · rw [if_neg hmh] at h
        cases hpool : resolvePool env (applyLimit cfg₀ lim) with
        | error e =>
          rw [hpool] at h
          simp only [bind, Except.bind] at h
          cases h
        | ok pool =>
          rw [hpool] at h
          simp only [bind, Except.bind] at h
          cases hfetch : fetchCandlesFromGecko env pool.address
              (applyLimit cfg₀ lim).network (applyLimit cfg₀ lim).interval
              (applyLimit cfg₀ lim).limit with
          | error e =>
            rw [hfetch] at h
            simp only [bind, Except.bind] at h
            cases h
          | ok fetched =>
            rw [hfetch] at h
            simp only [bind, Except.bind, pure, Except.pure, Except.ok.injEq] at h
            subst h
            exact Or.inl rfl

/-- **C9.** `fetchSpotCandles` never rejects: any exception raised inside the
body is caught and packaged as `{candles: [], price: null, …, error: msg}`,
and every returned object either carries `error: null` or carries empty
candles, a null price and a non-null error message. -/
theorem fetchSpotCandles_never_throws (env : SpotEnv) (cs : JSString)
    (lim : Option ℕ) :
    (∀ msg, fetchSpotCandlesRun env cs lim = .error msg →
        fetchSpotCandles env cs lim = ⟨[], none, none, none, some msg⟩)
    ∧ ((fetchSpotCandles env cs lim).error = none
        ∨ ((fetchSpotCandles env cs lim).candles = []
            ∧ (fetchSpotCandles env cs lim).price = none
            ∧ (fetchSpotCandles env cs lim).error ≠ none)) := by
  constructor
  · intro msg hmsg
    unfold fetchSpotCandles
    rw [hmsg]
  · unfold fetchSpotCandles
    cases hrun : fetchSpotCandlesRun env cs lim with
    | error e =>
      right
      exact ⟨rfl, rfl, by simp⟩
    | ok r =>
      rcases run_ok_shape env cs lim r hrun with h | ⟨h1, h2, h3⟩
      · exact Or.inl h
      · right
        refine ⟨h1, h2, ?_⟩
        rw [h3]
        simp

/-- A failing environment: `decodeURIComponent` throws, so `fetchSpotCandles`
on a percent-containing config must return the catch envelope. -/
def failingEnv : SpotEnv :=
  ⟨fun _ => .error "boom".data,
   fun _ _ _ => .error "no".data,
   fun _ _ _ _ => .error "no".data,
   fun _ _ => 1⟩

/-- Witness for C9: the malformed config `"%"` under a throwing decoder. -/
theorem fetchSpotCandles_never_throws_witness :
    fetchSpotCandles failingEnv "%".data none
      = ⟨[], none, none, none, some "boom".data⟩ :=
  (fetchSpotCandles_never_throws failingEnv "%".data none).1 "boom".data rfl

end FutarchyCharts
